import Mathlib

/-!
Formal model of the claykom/website Go server, shallowly embedded in Lean.

Go strings are modeled as `List Char`; `utf8Len` gives Go's `len` (UTF-8
byte count).  Go `time.Duration` and `int` are modeled as `Int`, with Go's
truncated integer division modeled by `Int.tdiv`.  The components modeled
here are the input validator (internal/middleware/validation.go), the
secure static file handler (middleware static handler, the revision with
NUL/backslash checks and the extension allow-list), the per-IP token-bucket
rate limiter (internal/middleware/ratelimit.go), and the blog handler
(internal/handlers/blog.go) together with the Go standard library string
and path functions they call.
-/

/-- Models Go `strings.HasPrefix pat`-style prefix test on character lists:
`startsWith pat s` is true when `pat` is an initial segment of `s`. -/
def startsWith : List Char → List Char → Bool
  | [], _ => true
  | _ :: _, [] => false
  | a :: pat, b :: s => a = b && startsWith pat s

/-- Models Go `strings.Contains s sub`: some suffix of `s` starts with `sub`. -/
def goContains : List Char → List Char → Bool
  | s, sub =>
    match s with
    | [] => startsWith sub []
    | _ :: s' => startsWith sub s || goContains s' sub

/-- Index (in characters) of the first occurrence of `sub` in `s`, if any.
Used to model Go `bytes.Index` inside `bytes.SplitN`. -/
def findSub (sub : List Char) : List Char → Option Nat
  | [] => if startsWith sub [] then some 0 else none
  | c :: s' => if startsWith sub (c :: s') then some 0 else (findSub sub s').map (· + 1)

/-- Models Go `bytes.SplitN s sep n` for `n ≥ 0` and nonempty `sep`
(the only way the repository calls it): split around at most `n - 1`
occurrences of `sep`. -/
def goSplitN (sep : List Char) : Nat → List Char → List (List Char)
  | 0, _ => []
  | 1, s => [s]
  | n + 2, s =>
    match findSub sep s with
    | none => [s]
    | some i => s.take i :: goSplitN sep (n + 1) (s.drop (i + sep.length))

/-- Split a character list on a separator character, keeping empty segments,
as Go `strings.Split s (String c)` does. -/
def splitOnChar (c : Char) : List Char → List (List Char)
  | [] => [[]]
  | a :: s =>
    if a = c then [] :: splitOnChar c s
    else
      match splitOnChar c s with
      | [] => [[a]]
      | t :: ts => (a :: t) :: ts

/-- ASCII whitespace predicate: the ASCII fragment of Go `unicode.IsSpace`
(the only characters relevant to the repository's front matter). -/
def isSpaceChar (c : Char) : Bool :=
  c = ' ' || c = '\t' || c = '\n' || Char.ofNat 11 = c || Char.ofNat 12 = c || c = '\r'

/-- Models Go `strings.TrimSpace` (over the ASCII whitespace fragment). -/
def trimSpace (s : List Char) : List Char :=
  ((s.dropWhile isSpaceChar).reverse.dropWhile isSpaceChar).reverse

/-- Models Go `strings.Trim s cutset`: remove leading and trailing characters
belonging to `cut`. -/
def trimCutset (cut : List Char) (s : List Char) : List Char :=
  ((s.dropWhile (fun a => cut.contains a)).reverse.dropWhile (fun a => cut.contains a)).reverse

/-- ASCII lower-casing of one character.  Go `strings.ToLower` is
Unicode-aware, but the only non-ASCII characters whose lower case is ASCII
(U+212A, U+212B) cannot produce any of the extensions compared against in
the static handler, so the ASCII map is extensionally adequate there. -/
def toLowerAscii (c : Char) : Char :=
  if 'A' ≤ c ∧ c ≤ 'Z' then Char.ofNat (c.toNat + 32) else c

/-- Models Go `strings.ReplaceAll s (String c) ""`: delete every occurrence
of the character `c`. -/
def removeAllChar (c : Char) (s : List Char) : List Char :=
  s.filter (fun a => a ≠ c)

/-- Number of bytes of the UTF-8 encoding of `c`; summed by `utf8Len` to
model Go's byte-based `len` on strings. -/
def utf8SizeC (c : Char) : Nat :=
  if c.toNat ≤ 0x7F then 1
  else if c.toNat ≤ 0x7FF then 2
  else if c.toNat ≤ 0xFFFF then 3
  else 4

/-- Models Go `len` on a string: the UTF-8 byte count. -/
def utf8Len (s : List Char) : Nat :=
  (s.map utf8SizeC).sum

/-- Character class of the validator's slug regular expression
`[a-zA-Z0-9\-_]` (validation.go line 20), expressed on code points. -/
def isSlugChar (c : Char) : Bool :=
  decide ((97 ≤ c.toNat ∧ c.toNat ≤ 122) ∨ (65 ≤ c.toNat ∧ c.toNat ≤ 90) ∨
    (48 ≤ c.toNat ∧ c.toNat ≤ 57) ∨ c = '-' ∨ c = '_')

/-- Full-string match of the anchored regular expression
`^[a-zA-Z0-9\-_]+$`: nonempty and every character in the class. -/
def slugRegexMatches (s : List Char) : Bool :=
  !s.isEmpty && s.all isSlugChar

/-- Models `ValidateSlug` (validation.go lines 25-36): reject empty or
over-100-byte slugs, then any occurrence of `..`, `/` or `\`, then require
the anchored regular expression to match. -/
def validateSlug (s : List Char) : Bool :=
  if s = [] ∨ 100 < utf8Len s then false
  else if goContains s ("..".toList) || goContains s ("/".toList) || goContains s ("\\".toList) then
    false
  else slugRegexMatches s

/-- Stack-based element processing of Go `path.Clean`: drop empty and `.`
elements; on `..` pop a previous element when one is available, else keep
the `..` only for a relative path. -/
def cleanElems (rooted : Bool) : List (List Char) → List (List Char) → List (List Char)
  | [], acc => acc
  | e :: es, acc =>
    if e = [] ∨ e = ['.'] then cleanElems rooted es acc
    else if e = ['.', '.'] then
      if acc ≠ [] ∧ acc.getLast? ≠ some ['.', '.'] then cleanElems rooted es acc.dropLast
      else if rooted then cleanElems rooted es acc
      else cleanElems rooted es (acc ++ [e])
    else cleanElems rooted es (acc ++ [e])

/-- Interleave a separator character between path elements. -/
def intercalateChar (c : Char) : List (List Char) → List Char
  | [] => []
  | [e] => e
  | e :: e2 :: es => e ++ c :: intercalateChar c (e2 :: es)

/-- Models Go `path.Clean` (and `filepath.Clean` on Linux, whose separator
is `/`): lexical simplification eliminating `.`, `..` and repeated slashes;
the empty result becomes `.`. -/
def pathClean (p : List Char) : List Char :=
  if p = [] then ['.']
  else
    let rooted := p.head? = some '/'
    let elems := cleanElems rooted (splitOnChar '/' p) []
    let out := (if rooted then ['/'] else []) ++ intercalateChar '/' elems
    if out = [] then ['.'] else out

/-- Remove all trailing occurrences of `c`, as the trailing-separator loop
of Go `filepath.Base` does. -/
def dropTrailing (c : Char) (s : List Char) : List Char :=
  (s.reverse.dropWhile (fun a => a = c)).reverse

/-- Segment of `s` after the last occurrence of `c` (all of `s` when `c`
does not occur), modeling the `path[i+1:]` slice of Go `filepath.Base` and
the backwards separator scan of `filepath.Ext`. -/
def afterLast (c : Char) (s : List Char) : List Char :=
  s.foldl (fun acc a => if a = c then [] else acc ++ [a]) []

/-- Models Go `filepath.Base` on Linux: empty path gives `.`; otherwise trim
trailing separators, keep everything after the last separator, and an empty
remainder gives `/`. -/
def goBase (p : List Char) : List Char :=
  if p = [] then ['.']
  else
    let q := dropTrailing '/' p
    let r := afterLast '/' q
    if r = [] then ['/'] else r

/-- Suffix of `s` starting at its last `.` (empty when there is no dot),
the dot-scan of Go `filepath.Ext` within the final path element. -/
def lastDotSuffix (s : List Char) : List Char :=
  s.foldl (fun acc a => if a = '.' then ['.'] else match acc with
    | [] => []
    | _ :: _ => acc ++ [a]) []

/-- Models Go `filepath.Ext`: the suffix of the final element starting at
its last dot. -/
def goExt (p : List Char) : List Char :=
  lastDotSuffix (afterLast '/' p)

/-- Models `SanitizeFilename` (validation.go lines 39-48):
`filepath.Base (path.Clean ("/" + filename))`, then delete any remaining
`/` and `\` characters. -/
def sanitizeFilename (s : List Char) : List Char :=
  removeAllChar '\\' (removeAllChar '/' (goBase (pathClean ('/' :: s))))

/-- Outcome of the secure static handler before any file is touched:
either the request is rejected with 403 Forbidden, or it is delegated to
the wrapped `http.FileServer`. -/
inductive StaticResponse where
  | forbidden
  | serve
deriving DecidableEq

/-- The NUL character checked for by the static handler. -/
def nulChar : Char := Char.ofNat 0

/-- The static handler's extension allow-list (the keys mapped to `true`
in its `allowedExtensions` map). -/
def allowedExtensions : List (List Char) :=
  [".css".toList, ".js".toList, ".png".toList, ".jpg".toList, ".jpeg".toList,
   ".gif".toList, ".ico".toList, ".svg".toList, ".woff".toList, ".woff2".toList,
   ".webp".toList, ".avif".toList]

/-- Models the decision logic of `SecureStaticHandler` (the revision with
enhanced checks): 403 when the raw path contains `..`, `\` or NUL, 403 when
the cleaned path contains `..` or is `.`, 403 when the lower-cased
extension is nonempty and not allow-listed; otherwise the request is passed
to the file server (header setting does not affect the decision). -/
def secureStatic (p : List Char) : StaticResponse :=
  if goContains p ("..".toList) || goContains p ("\\".toList) || goContains p [nulChar] then
    StaticResponse.forbidden
  else
    let cleanPath := pathClean p
    if goContains cleanPath ("..".toList) || decide (cleanPath = ".".toList) then
      StaticResponse.forbidden
    else
      let ext := (goExt p).map toLowerAscii
      if ext ≠ [] ∧ ¬ ext ∈ allowedExtensions then StaticResponse.forbidden
      else StaticResponse.serve

/-- Models `findFirstComma` (ratelimit.go lines 122-129): index of the
first comma, or the length when there is none. -/
def findFirstComma : List Char → Nat
  | [] => 0
  | c :: s => if c = ',' then 0 else findFirstComma s + 1

/-- Models `getClientIP` (ratelimit.go lines 104-120) on the three inputs
it reads: the `X-Forwarded-For` header value, the `X-Real-IP` header value
(each `[]` when absent, as Go `Header.Get` returns `""`), and
`RemoteAddr`.  `X-Forwarded-For` is consulted first. -/
def getClientIP (xff xri remoteAddr : List Char) : List Char :=
  if xff ≠ [] then xff.take (findFirstComma xff)
  else if xri ≠ [] then xri
  else remoteAddr

/-- Models the `RateLimiter` struct (ratelimit.go lines 10-16).  Go `int`
and `time.Duration`/`time.Time` values are modeled as unbounded `Int`
(overflow plays no role in the claims); instants are nanosecond counts. -/
structure RateLimiter where
  tokens : Int
  maxTokens : Int
  refillRate : Int
  lastRefill : Int
deriving DecidableEq

/-- Bucket created on first use of an IP (ratelimit.go lines 43-48):
`window / time.Duration(maxRequests)` is Go's truncated int64 division. -/
def newRateLimiter (maxRequests window now : Int) : RateLimiter :=
  { tokens := maxRequests, maxTokens := maxRequests,
    refillRate := Int.tdiv window maxRequests, lastRefill := now }

/-- Refill phase of `Allow` (ratelimit.go lines 56-64): add
`elapsed / refillRate` tokens (Go truncated division) capped at
`maxTokens`, advancing `lastRefill`, but only when at least one token is
added. -/
def allowRefill (l : RateLimiter) (now : Int) : RateLimiter :=
  let elapsed := now - l.lastRefill
  let tokensToAdd := Int.tdiv elapsed l.refillRate
  if 0 < tokensToAdd then
    { l with tokens := min l.maxTokens (l.tokens + tokensToAdd), lastRefill := now }
  else l

/-- Consumption phase of `Allow` (ratelimit.go lines 66-72) after the
refill: consume one token and allow iff a token is available. -/
def allowStep (l : RateLimiter) (now : Int) : RateLimiter × Bool :=
  let l1 := allowRefill l now
  if 0 < l1.tokens then ({ l1 with tokens := l1.tokens - 1 }, true) else (l1, false)

/-- Run a sequence of `Allow` calls at the given instants against one
bucket, returning the final bucket and how many calls were allowed. -/
def runAllowCount (l : RateLimiter) : List Int → RateLimiter × Nat
  | [] => (l, 0)
  | t :: ts =>
    let s := allowStep l t
    let r := runAllowCount s.1 ts
    (r.1, (if s.2 then 1 else 0) + r.2)

/-- Models lookup in the store's `limiters` map, with the map represented
as an association list. -/
def lookupLimiter : List (String × RateLimiter) → String → Option RateLimiter
  | [], _ => none
  | (k, v) :: rest, ip => if k = ip then some v else lookupLimiter rest ip

/-- Models `limiters[ip] = l` on the association-list representation. -/
def setLimiter : List (String × RateLimiter) → String → RateLimiter → List (String × RateLimiter)
  | [], ip, l => [(ip, l)]
  | (k, v) :: rest, ip, l =>
    if k = ip then (k, l) :: rest else (k, v) :: setLimiter rest ip l

/-- Models `RateLimitStore.Allow` (ratelimit.go lines 39-73): fetch the
IP's bucket, creating one from `maxRequests` and `window` when absent,
then refill and try to consume a token.  The two `time.Now()` readings of
the Go code are modeled by the single instant `now`. -/
def storeAllow (store : List (String × RateLimiter)) (ip : String)
    (maxRequests window now : Int) : List (String × RateLimiter) × Bool :=
  let limiter :=
    match lookupLimiter store ip with
    | some l => l
    | none => newRateLimiter maxRequests window now
  let s := allowStep limiter now
  (setLimiter store ip s.1, s.2)

/-- Models `models.BlogPost`.  `time.Time` fields are abstracted to an
integer code (`0` is Go's zero time; a parsed date `y-m-d` becomes
`y*10000 + m*100 + d`, preserving date order). -/
structure BlogPost where
  ID : List Char
  Title : List Char
  Slug : List Char
  Content : List Char
  Excerpt : List Char
  Author : List Char
  PublishedAt : Int
  UpdatedAt : Int
  Tags : List (List Char)
  Published : Bool
deriving DecidableEq

/-- The Go zero value `models.BlogPost` (all fields zero, `Published`
false). -/
def zeroBlogPost : BlogPost :=
  { ID := [], Title := [], Slug := [], Content := [], Excerpt := [], Author := [],
    PublishedAt := 0, UpdatedAt := 0, Tags := [], Published := false }

/-- Decimal digit test for the date layout. -/
def isDigitChar (c : Char) : Bool :=
  decide (48 ≤ c.toNat ∧ c.toNat ≤ 57)

/-- Numeric value of a digit character. -/
def digitVal (c : Char) : Nat := c.toNat - 48

/-- Models `time.Parse "2006-01-02" v` as used by the blog loader: a
ten-character `yyyy-mm-dd` string with months 1-12 and days 1-31 parses to
the integer date code, anything else is an error.  (The standard library
additionally checks the day against the month's length; no claim depends
on that refinement.) -/
def parseDateCode (v : List Char) : Option Int :=
  match v with
  | [y1, y2, y3, y4, d1, m1, m2, d2, a1, a2] =>
    if d1 = '-' ∧ d2 = '-' ∧ isDigitChar y1 ∧ isDigitChar y2 ∧ isDigitChar y3 ∧
        isDigitChar y4 ∧ isDigitChar m1 ∧ isDigitChar m2 ∧ isDigitChar a1 ∧
        isDigitChar a2 ∧
        1 ≤ digitVal m1 * 10 + digitVal m2 ∧ digitVal m1 * 10 + digitVal m2 ≤ 12 ∧
        1 ≤ digitVal a1 * 10 + digitVal a2 ∧ digitVal a1 * 10 + digitVal a2 ≤ 31 then
      some (((digitVal y1 * 1000 + digitVal y2 * 100 + digitVal y3 * 10 + digitVal y4) * 10000 : Nat)
        + (digitVal m1 * 10 + digitVal m2) * 100 + (digitVal a1 * 10 + digitVal a2) : Nat)
    else none
  | _ => none

/-- Models one iteration of the front-matter scanner loop of
`parseMarkdownFile` (blog.go lines 96-132): trim the line, skip empties,
split once on `:`, and update the post field selected by the key. -/
def parseFrontMatterLine (post : BlogPost) (line : List Char) : BlogPost :=
  let l := trimSpace line
  if l = [] then post
  else
    match goSplitN (":".toList) 2 l with
    | [key, value] =>
      let k := trimSpace key
      let v := trimSpace value
      if k = "title".toList then { post with Title := v }
      else if k = "slug".toList then { post with Slug := v, ID := v }
      else if k = "author".toList then { post with Author := v }
      else if k = "date".toList then
        match parseDateCode v with
        | some t => { post with PublishedAt := t }
        | none => post
      else if k = "excerpt".toList then { post with Excerpt := v }
      else if k = "tags".toList then
        { post with Tags := post.Tags ++ (splitOnChar ',' (trimCutset ("[]".toList) v)).map trimSpace }
      else post
    | _ => post

/-- Lines seen by the `bufio.Scanner` over the front matter: split on
newline (each line is trimmed by the loop, so the scanner's handling of a
final newline or of `\r` is immaterial to the resulting post). -/
def linesOf (s : List Char) : List (List Char) :=
  splitOnChar '\n' s

/-- Models `parseMarkdownFile` (blog.go lines 74-138) on the bytes of one
file.  The returned `Bool` is whether the Go error result is non-nil.
`markdownToHTML` abstracts the external gomarkdown renderer and `now` the
`time.Now()` used for `UpdatedAt`.  When the content does not split into
three parts around `---`, the function returns the zero post together with
the `err` variable, which is provably nil at that point (blog.go line 83)
since `os.ReadFile` succeeded. -/
def parseMarkdownFile (markdownToHTML : List Char → List Char) (now : Int)
    (content : List Char) : BlogPost × Bool :=
  match goSplitN ("---".toList) 3 content with
  | _ :: frontmatter :: markdownContent :: _ =>
    let post0 : BlogPost := { zeroBlogPost with Published := true, UpdatedAt := now }
    let post1 := (linesOf frontmatter).foldl parseFrontMatterLine post0
    ({ post1 with Content := markdownToHTML markdownContent }, false)
  | _ => (zeroBlogPost, false)

/-- Models the accumulation loop of `loadMarkdownPosts` (blog.go lines
50-63) over the bytes of the `.md` files found in the blog directory: a
file whose parse reports an error is logged and skipped, every other file
appends its post.  The final `sort.Slice` (an unstable sort by publish
date) only permutes this list, so the entries are modeled in read order. -/
def loadMarkdownPosts (markdownToHTML : List Char → List Char) (now : Int)
    (files : List (List Char)) : List BlogPost :=
  files.foldl (fun acc content =>
    let r := parseMarkdownFile markdownToHTML now content
    if r.2 then acc else acc ++ [r.1]) []

/-- Response produced by `GetPost`: a rendered page for the first matching
published post, or a plain-text error from `http.Error` (which per
net/http sets `Content-Type: text/plain; charset=utf-8` and appends a
newline to the message). -/
inductive BlogResponse where
  | htmlPage (post : BlogPost)
  | errorText (status : Nat) (message : List Char)
deriving DecidableEq

/-- Body written by Go `http.Error`: the message followed by a newline. -/
def httpErrorBody (message : List Char) : List Char :=
  message ++ ['\n']

/-- Content type set by Go `http.Error`. -/
def httpErrorContentTypeStr : List Char :=
  "text/plain; charset=utf-8".toList

/-- Models `GetPost` (blog.go lines 173-195): 400 for an empty slug, the
page of the first published post with the requested slug, else a 404 via
`http.Error` (the render-failure 500 path of the external template engine
is not modeled). -/
def getPost (posts : List BlogPost) (slug : List Char) : BlogResponse :=
  if slug = [] then BlogResponse.errorText 400 ("Slug parameter is required".toList)
  else
    match posts.find? (fun p => decide (p.Slug = slug) && p.Published) with
    | some p => BlogResponse.htmlPage p
    | none => BlogResponse.errorText 404 ("Blog post not found".toList)

/-- Invariant claimed for a bucket: the token count is between zero and
the capacity. -/
def goodLimiter (l : RateLimiter) : Prop :=
  0 ≤ l.tokens ∧ l.tokens ≤ l.maxTokens

/-- Every character of the UTF-8 encoding occupies at least one byte. -/
theorem utf8SizeC_pos (c : Char) : 1 ≤ utf8SizeC c := by
  unfold utf8SizeC; split_ifs <;> norm_num

/-- Characters of the slug class are ASCII and occupy one byte. -/
theorem utf8SizeC_of_slug (c : Char) (h : isSlugChar c = true) : utf8SizeC c = 1 := by
  unfold isSlugChar at h
  rw [decide_eq_true_eq] at h
  unfold utf8SizeC
  rcases h with h | h | h | h | h
  · rw [if_pos (by omega)]
  · rw [if_pos (by omega)]
  · rw [if_pos (by omega)]
  · subst h; rfl
  · subst h; rfl

/-- A string has at least as many bytes as characters. -/
theorem length_le_utf8Len (s : List Char) : s.length ≤ utf8Len s := by
  induction s with
  | nil => simp [utf8Len]
  | cons c s ih =>
    have := utf8SizeC_pos c
    simp only [utf8Len, List.map_cons, List.sum_cons, List.length_cons] at *
    omega

/-- On strings drawn from the slug class, Go's byte length equals the
character count. -/
theorem utf8Len_of_slug (s : List Char) (h : s.all isSlugChar = true) :
    utf8Len s = s.length := by
  induction s with
  | nil => simp [utf8Len]
  | cons c s ih =>
    rw [List.all_cons, Bool.and_eq_true] at h
    simp only [utf8Len, List.map_cons, List.sum_cons, List.length_cons] at *
    rw [utf8SizeC_of_slug c h.1, ih h.2]
    omega

/-- C6: `ValidateSlug` returns false on the empty string, on strings over
100 characters, and on strings containing `..`, `/` or `\`; otherwise it
returns true exactly when the string fully matches `[A-Za-z0-9_-]+`; in
particular on `../etc`, `a/b`, the empty string and a 101-character string
it returns false, and on `post-123` it returns true. -/
theorem c6_validateSlug_contract :
    (∀ s : List Char, validateSlug s = true ↔
        (s ≠ [] ∧ s.length ≤ 100 ∧ goContains s ("..".toList) = false ∧
         goContains s ("/".toList) = false ∧ goContains s ("\\".toList) = false ∧
         s.all isSlugChar = true)) ∧
    validateSlug ("../etc".toList) = false ∧ validateSlug ("a/b".toList) = false ∧
    validateSlug [] = false ∧ validateSlug (List.replicate 101 'a') = false ∧
    validateSlug ("post-123".toList) = true := by
  refine ⟨?_, by decide, by decide, by decide, by decide, by decide⟩
  intro s
  constructor
  · intro h
    unfold validateSlug at h
    by_cases h1 : s = [] ∨ 100 < utf8Len s
    · rw [if_pos h1] at h; cases h
    · rw [if_neg h1] at h
      by_cases h2 : (goContains s ("..".toList) || goContains s ("/".toList) ||
          goContains s ("\\".toList)) = true
      · rw [if_pos h2] at h; cases h
      · rw [if_neg h2] at h
        unfold slugRegexMatches at h
        rw [Bool.and_eq_true] at h
        push_neg at h1
        simp only [Bool.or_eq_true, not_or, Bool.not_eq_true] at h2
        have hb := utf8Len_of_slug s h.2
        have hlen : s.length ≤ 100 := by omega
        exact ⟨h1.1, hlen, h2.1.1, h2.1.2, h2.2, h.2⟩
  · rintro ⟨hne, hlen, hc1, hc2, hc3, hall⟩
    unfold validateSlug
    have hb := utf8Len_of_slug s hall
    rw [if_neg (by push_neg; exact ⟨hne, by omega⟩),
      if_neg (by simp only [Bool.or_eq_true, not_or, Bool.not_eq_true]; exact ⟨⟨hc1, hc2⟩, hc3⟩)]
    unfold slugRegexMatches
    rw [Bool.and_eq_true, Bool.not_eq_true', List.isEmpty_eq_false]
    exact ⟨hne, hall⟩

/-- C4: at the failing input (both headers set), `getClientIP` returns the
first `X-Forwarded-For` entry, not the `X-Real-IP` value: the code
consults `X-Forwarded-For` first, contrary to the documented precedence. -/
theorem c4_xff_consulted_before_xri :
    getClientIP ("203.0.113.1".toList) ("203.0.113.2".toList) ("127.0.0.1:80".toList) =
      "203.0.113.1".toList ∧
    getClientIP ("203.0.113.1".toList) ("203.0.113.2".toList) ("127.0.0.1:80".toList) ≠
      "203.0.113.2".toList := by decide

/-- C5: a file whose content has no front-matter split around `---` makes
`parseMarkdownFile` return the zero post together with a nil error, so the
loading loop appends the zero-value post instead of logging and skipping
the file. -/
theorem c5_malformed_file_appended (markdownToHTML : List Char → List Char) (now : Int) :
    parseMarkdownFile markdownToHTML now ("hello world".toList) = (zeroBlogPost, false) ∧
    loadMarkdownPosts markdownToHTML now [("hello world".toList)] = [zeroBlogPost] := by
  exact ⟨rfl, rfl⟩

/-- C9: once an IP has a bucket in the store, `Allow` ignores the
`maxRequests` and `window` arguments: the outcome and the new store are
the same for any two choices of those arguments. -/
theorem c9_existing_bucket_ignores_args (store : List (String × RateLimiter)) (ip : String)
    (l : RateLimiter) (h : lookupLimiter store ip = some l) (m w m' w' now : Int) :
    storeAllow store ip m w now = storeAllow store ip m' w' now := by
  unfold storeAllow
  rw [h]

/-- Witness instantiating `c9_existing_bucket_ignores_args` on a store that
already holds a bucket for the IP. -/
theorem c9_witness :
    storeAllow [(("1.2.3.4" : String), newRateLimiter 5 100 0)] ("1.2.3.4") 1 2 3 =
      storeAllow [(("1.2.3.4" : String), newRateLimiter 5 100 0)] ("1.2.3.4") 99 1000 3 :=
  c9_existing_bucket_ignores_args [(("1.2.3.4" : String), newRateLimiter 5 100 0)] ("1.2.3.4")
    (newRateLimiter 5 100 0) (by decide) 1 2 99 1000 3

/-- Refilling preserves the token bounds. -/
theorem allowRefill_good (l : RateLimiter) (now : Int) (h : goodLimiter l) :
    goodLimiter (allowRefill l now) := by
  obtain ⟨h0, h1⟩ := h
  unfold allowRefill goodLimiter
  dsimp only
  split_ifs with hadd
  · refine ⟨le_min (by omega) (by omega), by simp [min_le_left]⟩
  · exact ⟨h0, h1⟩

/-- One `Allow` call preserves the token bounds. -/
theorem allowStep_good (l : RateLimiter) (now : Int) (h : goodLimiter l) :
    goodLimiter (allowStep l now).1 := by
  have hg := allowRefill_good l now h
  obtain ⟨h0, h1⟩ := hg
  unfold allowStep
  dsimp only
  split_ifs with hpos
  · exact ⟨by simp; omega, by simp; omega⟩
  · exact ⟨h0, h1⟩

/-- One `Allow` call changes neither the capacity nor the refill rate. -/
theorem allowStep_frame (l : RateLimiter) (now : Int) :
    (allowStep l now).1.maxTokens = l.maxTokens ∧
    (allowStep l now).1.refillRate = l.refillRate := by
  unfold allowStep allowRefill
  dsimp only
  split_ifs <;> simp

/-- A sequence of `Allow` calls preserves the token bounds. -/
theorem runAllowCount_good (ts : List Int) :
    ∀ l : RateLimiter, goodLimiter l → goodLimiter (runAllowCount l ts).1 := by
  induction ts with
  | nil => intro l h; exact h
  | cons t ts ih =>
    intro l h
    exact ih (allowStep l t).1 (allowStep_good l t h)

/-- A sequence of `Allow` calls changes neither the capacity nor the
refill rate. -/
theorem runAllowCount_frame (ts : List Int) :
    ∀ l : RateLimiter, (runAllowCount l ts).1.maxTokens = l.maxTokens ∧
      (runAllowCount l ts).1.refillRate = l.refillRate := by
  induction ts with
  | nil => intro l; exact ⟨rfl, rfl⟩
  | cons t ts ih =>
    intro l
    have h1 := ih (allowStep l t).1
    have h2 := allowStep_frame l t
    exact ⟨h1.1.trans h2.1, h1.2.trans h2.2⟩

/-- C8: starting from the bucket `Allow` creates on first use, any
sequence of calls leaves the token count between 0 and the capacity. -/
theorem c8_tokens_within_bounds (maxRequests window t0 : Int) (ts : List Int)
    (h : 0 < maxRequests) :
    0 ≤ (runAllowCount (newRateLimiter maxRequests window t0) ts).1.tokens ∧
    (runAllowCount (newRateLimiter maxRequests window t0) ts).1.tokens ≤
      (runAllowCount (newRateLimiter maxRequests window t0) ts).1.maxTokens :=
  runAllowCount_good ts (newRateLimiter maxRequests window t0)
    ⟨by simp [newRateLimiter]; omega, by simp [newRateLimiter]⟩

/-- Witness instantiating `c8_tokens_within_bounds` on a concrete bucket
and call sequence. -/
theorem c8_witness :
    (0 : Int) < 2 ∧
    (0 ≤ (runAllowCount (newRateLimiter 2 10 0) [0, 0, 5, 100]).1.tokens ∧
     (runAllowCount (newRateLimiter 2 10 0) [0, 0, 5, 100]).1.tokens ≤
       (runAllowCount (newRateLimiter 2 10 0) [0, 0, 5, 100]).1.maxTokens) :=
  ⟨by decide, c8_tokens_within_bounds 2 10 0 [0, 0, 5, 100] (by decide)⟩

/-- C2: any request path containing `..`, a backslash or a NUL byte, or
whose cleaned path still contains `..` or equals `.`, is answered 403 by
the secure static handler and never reaches the file server; in
particular `/../../etc/passwd` is answered 403. -/
theorem c2_traversal_forbidden :
    (∀ p : List Char,
      goContains p ("..".toList) = true ∨ goContains p ("\\".toList) = true ∨
        goContains p [nulChar] = true ∨ goContains (pathClean p) ("..".toList) = true ∨
        pathClean p = ".".toList →
      secureStatic p = StaticResponse.forbidden) ∧
    secureStatic ("/../../etc/passwd".toList) = StaticResponse.forbidden := by
  constructor
  · intro p h
    unfold secureStatic
    dsimp only
    split_ifs with h1 h2 h3
    · rfl
    · rfl
    · rfl
    · exfalso
      simp only [Bool.or_eq_true, not_or, Bool.not_eq_true] at h1 h2
      rcases h with h | h | h | h | h <;> simp_all
  · decide

/-- Witness instantiating `c2_traversal_forbidden` at `/../../etc/passwd`. -/
theorem c2_witness : secureStatic ("/../../etc/passwd".toList) = StaticResponse.forbidden :=
  c2_traversal_forbidden.1 ("/../../etc/passwd".toList) (Or.inl (by decide))

/-- C3 counterexample: `/readme` passes every traversal check and has no
extension, yet the handler does not respond 403 — it delegates the
request — contradicting the claim that extension-less paths are
forbidden. -/
theorem c3_counterexample_no_extension_served :
    goContains ("/readme".toList) ("..".toList) = false ∧
    goContains ("/readme".toList) ("\\".toList) = false ∧
    goContains ("/readme".toList) [nulChar] = false ∧
    goContains (pathClean ("/readme".toList)) ("..".toList) = false ∧
    pathClean ("/readme".toList) ≠ ".".toList ∧
    goExt ("/readme".toList) = [] ∧
    secureStatic ("/readme".toList) ≠ StaticResponse.forbidden := by decide

/-- C3 (amended): for a path passing the traversal checks, the handler
serves it iff its lower-cased extension is empty or allow-listed;
equivalently it responds 403 exactly for a nonempty non-allow-listed
extension, while extension-less paths are delegated to the file server. -/
theorem c3_extension_allowlist (p : List Char)
    (h1 : goContains p ("..".toList) = false)
    (h2 : goContains p ("\\".toList) = false)
    (h3 : goContains p [nulChar] = false)
    (h4 : goContains (pathClean p) ("..".toList) = false)
    (h5 : pathClean p ≠ ".".toList) :
    secureStatic p = StaticResponse.serve ↔
      ((goExt p).map toLowerAscii = [] ∨ (goExt p).map toLowerAscii ∈ allowedExtensions) := by
  unfold secureStatic
  dsimp only
  rw [if_neg (by simp only [Bool.or_eq_true, not_or, Bool.not_eq_true]; exact ⟨⟨h1, h2⟩, h3⟩),
    if_neg (by simp only [Bool.or_eq_true, not_or, Bool.not_eq_true, decide_eq_true_eq]; exact ⟨h4, h5⟩)]
  split_ifs with h6
  · constructor
    · intro h; cases h
    · intro h; exact absurd h (by tauto)
  · push_neg at h6
    constructor
    · intro _
      by_cases he : (goExt p).map toLowerAscii = []
      · exact Or.inl he
      · exact Or.inr (h6 he)
    · intro _; rfl

/-- Witness instantiating `c3_extension_allowlist` at `/style.css`. -/
theorem c3_witness : secureStatic ("/style.css".toList) = StaticResponse.serve :=
  (c3_extension_allowlist ("/style.css".toList) (by decide) (by decide) (by decide)
    (by decide) (by decide)).mpr (Or.inr (by decide))

/-- C7 counterexample: for an unknown slug `GetPost` answers 404 through
`http.Error`, whose body does contain `not found` but is plain text
(`text/plain; charset=utf-8`), not JSON. -/
theorem c7_counterexample_plain_text_404 :
    getPost [] ("unknown-slug".toList) =
      BlogResponse.errorText 404 ("Blog post not found".toList) ∧
    goContains (httpErrorBody ("Blog post not found".toList)) ("not found".toList) = true ∧
    httpErrorContentTypeStr ≠ "application/json".toList ∧
    goContains httpErrorContentTypeStr ("json".toList) = false := by decide

/-- C7 (amended): for every nonempty slug matching no loaded published
post, `GetPost` responds 404 with the plain-text `http.Error` body
`Blog post not found`, which contains `not found`. -/
theorem c7_unknown_slug_404 (posts : List BlogPost) (slug : List Char)
    (hne : slug ≠ [])
    (hnone : ∀ p ∈ posts, p.Slug = slug → p.Published = false) :
    getPost posts slug = BlogResponse.errorText 404 ("Blog post not found".toList) ∧
    goContains (httpErrorBody ("Blog post not found".toList)) ("not found".toList) = true := by
  refine ⟨?_, by decide⟩
  unfold getPost
  rw [if_neg hne]
  have hfind : posts.find? (fun p => decide (p.Slug = slug) && p.Published) = none := by
    rw [List.find?_eq_none]
    intro p hp
    simp only [Bool.and_eq_true, decide_eq_true_eq, not_and]
    intro h1
    rw [hnone p hp h1]
    simp
  rw [hfind]

/-- Witness instantiating `c7_unknown_slug_404` on an empty post list and
the slug `unknown-slug`. -/
theorem c7_witness :
    getPost [] ("unknown-slug".toList) =
      BlogResponse.errorText 404 ("Blog post not found".toList) ∧
    goContains (httpErrorBody ("Blog post not found".toList)) ("not found".toList) = true :=
  c7_unknown_slug_404 [] ("unknown-slug".toList) (by decide) (by simp)

/-- Truncated division of nonnegative integers by a positive integer is
superadditive. -/
theorem tdiv_add_le (a b r : Int) (ha : 0 ≤ a) (hb : 0 ≤ b) (hr : 0 < r) :
    Int.tdiv a r + Int.tdiv b r ≤ Int.tdiv (a + b) r := by
  rw [Int.tdiv_eq_ediv ha hr.le, Int.tdiv_eq_ediv hb hr.le, Int.tdiv_eq_ediv (by omega) hr.le]
  rw [Int.le_ediv_iff_mul_le hr, add_mul]
  exact add_le_add (Int.ediv_mul_le a hr.ne') (Int.ediv_mul_le b hr.ne')

/-- Accounting for one `Allow` call: `lastRefill` moves forward but not
past `now`, and the consumed token plus the remaining tokens are covered
by the previous tokens plus the refill credit `⌊elapsed/refillRate⌋`. -/
theorem allowStep_account (l : RateLimiter) (now : Int) (hr : 0 < l.refillRate)
    (hle : l.lastRefill ≤ now) :
    l.lastRefill ≤ (allowStep l now).1.lastRefill ∧
    (allowStep l now).1.lastRefill ≤ now ∧
    (allowStep l now).1.tokens + (if (allowStep l now).2 then (1 : Int) else 0) ≤
      l.tokens + Int.tdiv ((allowStep l now).1.lastRefill - l.lastRefill) l.refillRate := by
  have hmin : l.maxTokens ⊓ (l.tokens + Int.tdiv (now - l.lastRefill) l.refillRate) ≤
      l.tokens + Int.tdiv (now - l.lastRefill) l.refillRate := min_le_right _ _
  unfold allowStep
  by_cases hadd : 0 < Int.tdiv (now - l.lastRefill) l.refillRate
  · have hR1 : allowRefill l now = { l with tokens := l.maxTokens ⊓ (l.tokens + Int.tdiv (now - l.lastRefill) l.refillRate), lastRefill := now } := by
      unfold allowRefill; dsimp only; rw [if_pos hadd]
    rw [hR1]
    dsimp only
    by_cases hpos : 0 < l.maxTokens ⊓ (l.tokens + Int.tdiv (now - l.lastRefill) l.refillRate)
    · refine ⟨?_, ?_, ?_⟩ <;> simp only [if_pos hpos] <;> (try simp) <;> omega
    · refine ⟨?_, ?_, ?_⟩ <;> simp only [if_neg hpos] <;> (try simp) <;> omega
  · have hR2 : allowRefill l now = l := by
      unfold allowRefill; dsimp only; rw [if_neg hadd]
    rw [hR2]
    dsimp only
    by_cases hpos : 0 < l.tokens
    · refine ⟨?_, ?_, ?_⟩ <;> simp only [if_pos hpos] <;>
        (try simp [sub_self, Int.zero_tdiv]) <;> omega
    · refine ⟨?_, ?_, ?_⟩ <;> simp only [if_neg hpos] <;>
        (try simp [sub_self, Int.zero_tdiv]) <;> omega

/-- A later lower bound on a `≤`-chain still gives a chain. -/
theorem chain_le_of_le {a b : Int} (h : b ≤ a) :
    ∀ {ts : List Int}, List.Chain (· ≤ ·) a ts → List.Chain (· ≤ ·) b ts := by
  intro ts hc
  cases hc with
  | nil => exact List.Chain.nil
  | cons hab hc => exact List.Chain.cons (le_trans h hab) hc

/-- Token-bucket accounting over a whole call sequence: along calls at
nondecreasing instants bounded by `B`, the number of allowed calls plus
the remaining tokens never exceeds the initial tokens plus the total
refill credit `⌊(B - lastRefill)/refillRate⌋`. -/
theorem runAllowCount_bound (ts : List Int) :
    ∀ (l : RateLimiter) (B : Int), 0 < l.refillRate → goodLimiter l →
    List.Chain (· ≤ ·) l.lastRefill ts → (∀ t ∈ ts, t ≤ B) → l.lastRefill ≤ B →
    ((runAllowCount l ts).2 : Int) + (runAllowCount l ts).1.tokens ≤
      l.tokens + Int.tdiv (B - l.lastRefill) l.refillRate := by
  induction ts with
  | nil =>
    intro l B hr hg _ _ hlB
    have : (0 : Int) ≤ Int.tdiv (B - l.lastRefill) l.refillRate :=
      Int.tdiv_nonneg (by omega) hr.le
    simp only [runAllowCount, Nat.cast_zero]
    omega
  | cons t ts ih =>
    intro l B hr hg hchain hmem hlB
    rw [List.chain_cons] at hchain
    obtain ⟨hlt, hchain2⟩ := hchain
    have hstep := allowStep_account l t hr hlt
    have hgood := allowStep_good l t hg
    have hframe := allowStep_frame l t
    have htB : t ≤ B := hmem t (List.mem_cons_self t ts)
    have hih := ih (allowStep l t).1 B (by rw [hframe.2]; exact hr) hgood
      (chain_le_of_le hstep.2.1 hchain2)
      (fun x hx => hmem x (List.mem_cons_of_mem t hx))
      (le_trans hstep.2.1 htB)
    rw [hframe.2] at hih
    have hsuper := tdiv_add_le ((allowStep l t).1.lastRefill - l.lastRefill)
      (B - (allowStep l t).1.lastRefill) l.refillRate (by omega)
      (by have := hstep.2.1; omega) hr
    have hcast : ((runAllowCount l (t :: ts)).2 : Int) =
        (if (allowStep l t).2 then (1 : Int) else 0) +
          ((runAllowCount (allowStep l t).1 ts).2 : Int) := by
      simp only [runAllowCount]
      split_ifs <;> push_cast <;> ring
    have hout : (runAllowCount l (t :: ts)).1 = (runAllowCount (allowStep l t).1 ts).1 := by
      simp only [runAllowCount]
    rw [hcast, hout]
    have hacct := hstep.2.2
    have heq : (allowStep l t).1.lastRefill - l.lastRefill +
        (B - (allowStep l t).1.lastRefill) = B - l.lastRefill := by ring
    rw [heq] at hsuper
    omega

/-- After at least `refillRate * maxTokens` nanoseconds, a refill
restores a bucket to full capacity. -/
theorem allowRefill_full (l : RateLimiter) (now : Int) (hr : 0 < l.refillRate)
    (hg : goodLimiter l) (h : l.lastRefill + l.refillRate * l.maxTokens ≤ now) :
    (allowRefill l now).tokens = l.maxTokens := by
  obtain ⟨hg0, hg1⟩ := hg
  have hM : 0 ≤ l.maxTokens := le_trans hg0 hg1
  have hmul : 0 ≤ l.refillRate * l.maxTokens := mul_nonneg hr.le hM
  have hadd : l.maxTokens ≤ Int.tdiv (now - l.lastRefill) l.refillRate := by
    rw [Int.tdiv_eq_ediv (by omega) hr.le, Int.le_ediv_iff_mul_le hr]
    nlinarith
  unfold allowRefill
  dsimp only
  by_cases hM0 : 0 < l.maxTokens
  · rw [if_pos (lt_of_lt_of_le hM0 hadd)]
    simp only
    exact min_eq_left (by omega)
  · have hMz : l.maxTokens = 0 := le_antisymm (by omega) hM
    have htz : l.tokens = 0 := le_antisymm (hMz ▸ hg1) hg0
    split_ifs with hpos
    · simp only
      exact min_eq_left (by omega)
    · omega

/-- C1 (amended): first use creates the bucket exactly as documented and
each call refills by `⌊elapsed/refillRate⌋` capped at capacity, allowing
iff a token is available and consuming one; over any nondecreasing call
sequence inside the creation window the number of allowed calls is at most
`maxRequests + ⌊(window-1)/refillRate⌋` (it can exceed `maxRequests`), and
once a full window elapses a refill restores full capacity. -/
theorem c1_token_bucket (maxRequests window t0 : Int) (ts : List Int)
    (hm : 0 < maxRequests) (hw : maxRequests ≤ window)
    (hchain : List.Chain (· ≤ ·) t0 ts)
    (hwin : ∀ t ∈ ts, t < t0 + window) :
    (newRateLimiter maxRequests window t0).tokens = maxRequests ∧
    (newRateLimiter maxRequests window t0).maxTokens = maxRequests ∧
    (newRateLimiter maxRequests window t0).refillRate = Int.tdiv window maxRequests ∧
    (∀ l : RateLimiter, ∀ now : Int,
      ((allowStep l now).2 = true ↔ 0 < (allowRefill l now).tokens) ∧
      ((allowStep l now).2 = true →
        (allowStep l now).1.tokens = (allowRefill l now).tokens - 1)) ∧
    ((runAllowCount (newRateLimiter maxRequests window t0) ts).2 : Int) ≤
      maxRequests + Int.tdiv (window - 1) (Int.tdiv window maxRequests) ∧
    (∀ now : Int,
      (runAllowCount (newRateLimiter maxRequests window t0) ts).1.lastRefill + window ≤ now →
      (allowRefill (runAllowCount (newRateLimiter maxRequests window t0) ts).1 now).tokens =
        maxRequests) := by
  have hrate_ediv : Int.tdiv window maxRequests = window / maxRequests :=
    Int.tdiv_eq_ediv (by omega) hm.le
  have hrate : 0 < Int.tdiv window maxRequests := by
    rw [hrate_ediv, Int.lt_iff_add_one_le, zero_add, Int.le_ediv_iff_mul_le hm, one_mul]
    exact hw
  have hgood0 : goodLimiter (newRateLimiter maxRequests window t0) :=
    ⟨by simp [newRateLimiter]; omega, by simp [newRateLimiter]⟩
  refine ⟨rfl, rfl, rfl, ?_, ?_, ?_⟩
  · intro l now
    unfold allowStep
    dsimp only
    by_cases h : 0 < (allowRefill l now).tokens
    · simp only [if_pos h]
      refine ⟨⟨fun _ => h, fun _ => ?_⟩, fun _ => ?_⟩ <;> trivial
    · simp only [if_neg h]
      exact ⟨⟨fun hh => absurd hh (by simp), fun hp => absurd hp h⟩,
        fun hh => absurd hh (by simp)⟩
  · have hb := runAllowCount_bound ts (newRateLimiter maxRequests window t0)
      (t0 + window - 1) hrate hgood0 hchain
      (fun t ht => by have := hwin t ht; omega) (by simp [newRateLimiter]; omega)
    have htf := (runAllowCount_good ts (newRateLimiter maxRequests window t0) hgood0).1
    rw [show (newRateLimiter maxRequests window t0).tokens = maxRequests from rfl,
      show (newRateLimiter maxRequests window t0).lastRefill = t0 from rfl,
      show (newRateLimiter maxRequests window t0).refillRate = Int.tdiv window maxRequests from rfl,
      show t0 + window - 1 - t0 = window - 1 from by ring] at hb
    omega
  · intro now hnow
    have hgf := runAllowCount_good ts (newRateLimiter maxRequests window t0) hgood0
    have hfr := runAllowCount_frame ts (newRateLimiter maxRequests window t0)
    have hrm : Int.tdiv window maxRequests * maxRequests ≤ window := by
      rw [hrate_ediv]
      exact Int.ediv_mul_le window (ne_of_gt hm)
    have hfull := allowRefill_full (runAllowCount (newRateLimiter maxRequests window t0) ts).1
      now (by rw [hfr.2]; exact hrate) hgf
      (by
        rw [hfr.1, hfr.2,
          show (newRateLimiter maxRequests window t0).refillRate = Int.tdiv window maxRequests from rfl,
          show (newRateLimiter maxRequests window t0).maxTokens = maxRequests from rfl]
        linarith [hrm, hnow])
    rw [hfull, hfr.1]
    rfl

/-- Witness instantiating the bound of `c1_token_bucket` on a concrete
window and call sequence. -/
theorem c1_witness :
    ((runAllowCount (newRateLimiter 2 10 0) [0, 0, 5]).2 : Int) ≤
      2 + Int.tdiv (10 - 1) (Int.tdiv 10 2) :=
  (c1_token_bucket 2 10 0 [0, 0, 5] (by decide) (by decide)
    (by norm_num [List.chain_cons]) (by decide)).2.2.2.2.1

/-- C1 counterexample: with `maxRequests = 2` and `window = 10`, the calls
at instants 0, 0 and 5 all lie in the creation window `[0, 10)` and all
three are allowed, so within one window more than `maxRequests` calls are
allowed. -/
theorem c1_counterexample_burst :
    List.Chain (· ≤ ·) (0 : Int) [0, 0, 5] ∧
    (∀ t ∈ [(0 : Int), 0, 5], 0 ≤ t ∧ t < 0 + 10) ∧
    (runAllowCount (newRateLimiter 2 10 0) [0, 0, 5]).2 = 3 ∧
    ¬((runAllowCount (newRateLimiter 2 10 0) [0, 0, 5]).2 ≤ 2) := by
  refine ⟨by norm_num [List.chain_cons], by decide, by decide, by decide⟩

/-- Splitting a list that starts with the separator yields a leading empty
segment. -/
theorem splitOnChar_cons_sep (c : Char) (s : List Char) :
    splitOnChar c (c :: s) = [] :: splitOnChar c s := by
  simp [splitOnChar]

/-- Splitting never yields an empty list of segments. -/
theorem splitOnChar_ne_nil (c : Char) (s : List Char) : splitOnChar c s ≠ [] := by
  induction s with
  | nil => simp [splitOnChar]
  | cons a s ih =>
    unfold splitOnChar
    split_ifs
    · simp
    · cases h : splitOnChar c s <;> simp

/-- Characters of any segment come from the original list and are never
the separator. -/
theorem chars_of_splitOnChar (c : Char) :
    ∀ (s e : List Char), e ∈ splitOnChar c s → ∀ a ∈ e, a ∈ s ∧ a ≠ c := by
  intro s
  induction s with
  | nil =>
    intro e he a ha
    simp [splitOnChar] at he
    subst he
    cases ha
  | cons b s ih =>
    intro e he a ha
    by_cases hbc : b = c
    · subst hbc
      rw [splitOnChar_cons_sep] at he
      rcases List.mem_cons.mp he with he1 | he2
      · subst he1; cases ha
      · have hr := ih e he2 a ha
        exact ⟨List.mem_cons_of_mem b hr.1, hr.2⟩
    · obtain ⟨t, ts, hsplit⟩ : ∃ t ts, splitOnChar c s = t :: ts := by
        cases h : splitOnChar c s with
        | nil => exact absurd h (splitOnChar_ne_nil c s)
        | cons t ts => exact ⟨t, ts, rfl⟩
      have hform : splitOnChar c (b :: s) = (b :: t) :: ts := by
        unfold splitOnChar
        rw [if_neg hbc, hsplit]
      rw [hform] at he
      rcases List.mem_cons.mp he with he1 | he2
      · subst he1
        rcases List.mem_cons.mp ha with ha1 | ha2
        · subst ha1; exact ⟨List.mem_cons_self _ _, hbc⟩
        · have hr := ih t (by rw [hsplit]; exact List.mem_cons_self t ts) a ha2
          exact ⟨List.mem_cons_of_mem b hr.1, hr.2⟩
      · have hr := ih e (by rw [hsplit]; exact List.mem_cons_of_mem t he2) a ha
        exact ⟨List.mem_cons_of_mem b hr.1, hr.2⟩

/-- A list without the separator splits into itself alone. -/
theorem splitOnChar_no_sep (c : Char) (s : List Char) (h : ∀ a ∈ s, a ≠ c) :
    splitOnChar c s = [s] := by
  induction s with
  | nil => rfl
  | cons b s ih =>
    have hbc : b ≠ c := h b (List.mem_cons_self b s)
    have hs := ih (fun a ha => h a (List.mem_cons_of_mem b ha))
    unfold splitOnChar
    rw [if_neg hbc, hs]

/-- On a rooted path, every element kept by the `Clean` stack is one of
the input elements and is neither empty nor `.` nor `..`. -/
theorem mem_cleanElems_true :
    ∀ (es acc : List (List Char)) (e : List Char), e ∈ cleanElems true es acc →
      e ∈ acc ∨ (e ∈ es ∧ e ≠ [] ∧ e ≠ ['.'] ∧ e ≠ ['.', '.']) := by
  intro es
  induction es with
  | nil =>
    intro acc e he
    simp only [cleanElems] at he
    exact Or.inl he
  | cons f es ih =>
    intro acc e he
    unfold cleanElems at he
    split_ifs at he with h1 h2 h3 h4
    · rcases ih acc e he with h | h
      · exact Or.inl h
      · exact Or.inr ⟨List.mem_cons_of_mem f h.1, h.2⟩
    · rcases ih acc.dropLast e he with h | h
      · exact Or.inl ((List.dropLast_sublist acc).subset h)
      · exact Or.inr ⟨List.mem_cons_of_mem f h.1, h.2⟩
    · rcases ih acc e he with h | h
      · exact Or.inl h
      · exact Or.inr ⟨List.mem_cons_of_mem f h.1, h.2⟩
    · exact absurd rfl h4
    · push_neg at h1
      rcases ih (acc ++ [f]) e he with h | h
      · rcases List.mem_append.mp h with hh | hh
        · exact Or.inl hh
        · have hef : e = f := by simpa using hh
          subst hef
          exact Or.inr ⟨List.mem_cons_self e es, h1.1, h1.2, h2⟩
      · exact Or.inr ⟨List.mem_cons_of_mem f h.1, h.2⟩

/-- Interleaving over a list ending in `e` exposes the final separator. -/
theorem intercalateChar_concat (c : Char) :
    ∀ (l : List (List Char)) (e : List Char),
      intercalateChar c (l ++ [e]) =
        if l = [] then e else intercalateChar c l ++ c :: e := by
  intro l
  induction l with
  | nil => intro e; simp [intercalateChar]
  | cons f l ih =>
    intro e
    cases l with
    | nil => simp [intercalateChar]
    | cons g l2 =>
      rw [if_neg (by simp)]
      have h1 : (f :: g :: l2) ++ [e] = f :: ((g :: l2) ++ [e]) := by simp
      rw [h1]
      have h2 : (g :: l2) ++ [e] = g :: (l2 ++ [e]) := by simp
      show f ++ c :: intercalateChar c ((g :: l2) ++ [e]) =
        (f ++ c :: intercalateChar c (g :: l2)) ++ c :: e
      rw [ih e, if_neg (by simp)]
      simp [intercalateChar]

/-- The `afterLast` fold over separator-free input appends it whole. -/
theorem foldlAfter_no_sep (c : Char) :
    ∀ (e acc : List Char), (∀ a ∈ e, a ≠ c) →
      e.foldl (fun acc a => if a = c then [] else acc ++ [a]) acc = acc ++ e := by
  intro e
  induction e with
  | nil => intro acc _; simp
  | cons b e ih =>
    intro acc h
    have hb : b ≠ c := h b (List.mem_cons_self b e)
    simp only [List.foldl_cons, if_neg hb]
    rw [ih (acc ++ [b]) (fun a ha => h a (List.mem_cons_of_mem b ha))]
    simp

/-- The segment after the last separator of `zs ++ c :: e` is `e` when `e`
is separator-free. -/
theorem afterLast_last_seg (c : Char) (zs e : List Char) (he : ∀ a ∈ e, a ≠ c) :
    afterLast c (zs ++ c :: e) = e := by
  unfold afterLast
  rw [List.foldl_append]
  simp only [List.foldl_cons, if_true]
  rw [foldlAfter_no_sep c e [] he]
  simp

/-- Trailing-separator trimming is the identity when the last character is
not the separator. -/
theorem dropTrailing_no (c : Char) (p : List Char) (h : p.getLast? ≠ some c) :
    dropTrailing c p = p := by
  unfold dropTrailing
  cases hp : p.reverse with
  | nil =>
    have : p = [] := by simpa using congrArg List.reverse hp
    simp [this]
  | cons a t =>
    have ha : a ≠ c := by
      intro hac
      apply h
      rw [← List.head?_reverse, hp, hac]
      rfl
    have hdw : List.dropWhile (fun x => x = c) (a :: t) = a :: t := by
      simp [ha]
    rw [hdw, ← hp, List.reverse_reverse]

/-- `filepath.Base` of a path ending in a nonempty separator-free segment
is that segment. -/
theorem goBase_last_seg (zs e : List Char) (he : e ≠ []) (hc : ∀ a ∈ e, a ≠ '/') :
    goBase (zs ++ '/' :: e) = e := by
  obtain ⟨e1, b, hb⟩ := (List.eq_nil_or_concat e).resolve_left he
  rw [List.concat_eq_append] at hb
  have hbnc : b ≠ '/' := hc b (by rw [hb]; simp)
  have hlast : (zs ++ '/' :: e).getLast? = some b := by
    rw [hb, show zs ++ '/' :: (e1 ++ [b]) = (zs ++ '/' :: e1) ++ [b] from by simp,
      List.getLast?_concat]
  unfold goBase
  rw [if_neg (by simp)]
  dsimp only
  rw [dropTrailing_no '/' _ (by rw [hlast]; simp [hbnc])]
  rw [afterLast_last_seg '/' zs e hc]
  rw [if_neg he]

/-- Structure of `path.Clean` on a rooted path: a leading slash followed
by the interleaved stack of cleaned elements. -/
theorem pathClean_rooted (s : List Char) :
    pathClean ('/' :: s) =
      '/' :: intercalateChar '/' (cleanElems true (splitOnChar '/' s) []) := by
  rfl

/-- Removing a character absent from the list is the identity. -/
theorem removeAllChar_no (c : Char) (s : List Char) (h : ∀ a ∈ s, a ≠ c) :
    removeAllChar c s = s := by
  unfold removeAllChar
  rw [List.filter_eq_self]
  intro a ha
  simp [h a ha]

/-- Structure of `SanitizeFilename` on backslash-free input: the result is
either empty or a nonempty slash-free element of the slash-split of the
input that is neither `.` nor `..`. -/
theorem sanitizeFilename_elem (s : List Char) (hnb : ¬ '\\' ∈ s) :
    sanitizeFilename s = [] ∨
    ∃ e, sanitizeFilename s = e ∧ e ≠ [] ∧ e ≠ ['.'] ∧ e ≠ ['.', '.'] ∧
      (∀ a ∈ e, a ∈ s ∧ a ≠ '/') := by
  rcases List.eq_nil_or_concat (cleanElems true (splitOnChar '/' s) []) with hnil | ⟨l, e, hconcat⟩
  · left
    unfold sanitizeFilename
    rw [pathClean_rooted, hnil]
    rfl
  · right
    rw [List.concat_eq_append] at hconcat
    have hel : ∀ f ∈ l ++ [e], f ∈ splitOnChar '/' s ∧ f ≠ [] ∧ f ≠ ['.'] ∧ f ≠ ['.', '.'] := by
      intro f hf
      have hm := mem_cleanElems_true (splitOnChar '/' s) [] f (by rw [hconcat]; exact hf)
      rcases hm with h | h
      · cases h
      · exact h
    have he := hel e (by simp)
    have hchars : ∀ a ∈ e, a ∈ s ∧ a ≠ '/' :=
      fun a ha => chars_of_splitOnChar '/' s e he.1 a ha
    have hnbs : ∀ a ∈ e, a ≠ '\\' := by
      intro a ha heq
      exact hnb (heq ▸ (hchars a ha).1)
    refine ⟨e, ?_, he.2.1, he.2.2.1, he.2.2.2, hchars⟩
    unfold sanitizeFilename
    rw [pathClean_rooted, hconcat]
    have hbase : goBase ('/' :: intercalateChar '/' (l ++ [e])) = e := by
      rw [intercalateChar_concat]
      by_cases hl : l = []
      · rw [if_pos hl]
        exact goBase_last_seg [] e he.2.1 (fun a ha => (hchars a ha).2)
      · rw [if_neg hl]
        rw [show ('/' :: (intercalateChar '/' l ++ '/' :: e)) =
          ('/' :: intercalateChar '/' l) ++ '/' :: e from by simp]
        exact goBase_last_seg ('/' :: intercalateChar '/' l) e he.2.1
          (fun a ha => (hchars a ha).2)
    rw [hbase, removeAllChar_no '/' e (fun a ha => (hchars a ha).2),
      removeAllChar_no '\\' e hnbs]

/-- C10 counterexample: `SanitizeFilename` is not idempotent: on `.\.` it
returns `..` (the backslash removal manufactures a traversal marker), but
on `..` it returns the empty string. -/
theorem c10_counterexample_backslash :
    sanitizeFilename (sanitizeFilename (".\\.".toList)) ≠ sanitizeFilename (".\\.".toList) ∧
    sanitizeFilename (".\\.".toList) = "..".toList ∧
    sanitizeFilename ("..".toList) = [] := by decide

/-- C10 (amended): `SanitizeFilename` is idempotent on every input that
contains no backslash. -/
theorem c10_sanitizeFilename_idempotent_no_backslash (s : List Char) (h : ¬ '\\' ∈ s) :
    sanitizeFilename (sanitizeFilename s) = sanitizeFilename s := by
  rcases sanitizeFilename_elem s h with hnil | ⟨e, hse, hne, hnd, hndd, hchars⟩
  · rw [hnil]
    rfl
  · rw [hse]
    have hslash : ∀ a ∈ e, a ≠ '/' := fun a ha => (hchars a ha).2
    have hnbs : ∀ a ∈ e, a ≠ '\\' := by
      intro a ha heq
      exact h (heq ▸ (hchars a ha).1)
    unfold sanitizeFilename
    rw [pathClean_rooted, splitOnChar_no_sep '/' e hslash]
    have hclean : cleanElems true [e] [] = [e] := by
      unfold cleanElems
      rw [if_neg (by push_neg; exact ⟨hne, hnd⟩), if_neg hndd]
      rfl
    rw [hclean]
    have hb : goBase ('/' :: intercalateChar '/' [e]) = e :=
      goBase_last_seg [] e hne hslash
    rw [hb, removeAllChar_no '/' e hslash, removeAllChar_no '\\' e hnbs]

/-- Witness instantiating `c10_sanitizeFilename_idempotent_no_backslash`
at a concrete backslash-free filename. -/
theorem c10_witness :
    ¬ '\\' ∈ ("notes.txt".toList) ∧
    sanitizeFilename (sanitizeFilename ("notes.txt".toList)) =
      sanitizeFilename ("notes.txt".toList) :=
  ⟨by decide, c10_sanitizeFilename_idempotent_no_backslash ("notes.txt".toList) (by decide)⟩
